import Mathlib

/-
Verification development for the systems-audio-lab oscilloscope toolkit.

The Python sources under src/oscilloscope-rp2040 are embedded shallowly:
pure numpy routines become Lean functions over lists of exact numbers
(rationals where the code only compares and scales, reals where it uses
transcendental functions), serial I/O is modelled by the byte strings the
transport returns for each requested read, and raised exceptions become
Except/Option results.
-/

namespace SysAudio

/-- Configuration constant ADC_MAX_VAL from src/config.py. -/

def ADC_MAX_VAL : ℕ := 65535

/-- Configuration constant V_REF (3.3 volts) from src/config.py. -/

def V_REF : ℚ := 33 / 10

/-- Configuration constant V_MID (1.65 volts) from src/config.py. -/

def V_MID : ℚ := 33 / 20

/-- Configuration constant BURST_SAMPLES from src/config.py. -/

def BURST_SAMPLES : ℕ := 16384

/-- Configuration constant LIVE_SAMPLES from src/config.py. -/

def LIVE_SAMPLES : ℕ := 1024

/-- Decoding of a byte string as little-endian unsigned 16-bit integers:
the semantics of np.frombuffer(raw, dtype="<u2") used by
DAQInterface.capture_burst and DAQInterface.stream_generator in
src/daq.py.  Bytes are naturals below 256; a trailing odd byte decodes to
nothing (frombuffer requires an even count, which the callers guarantee). -/

def decodeU16LE : List ℕ → List ℕ
  | lo :: hi :: rest => (lo + 256 * hi) :: decodeU16LE rest
  | _ => []

/-- Embedding of DAQInterface.capture_burst from src/daq.py (the
sysaudio/daq.py copy is identical on a connected session).  The serial
transport is modelled by the byte string `raw` that the blocking read
returns for the requested samples * 2 bytes; pyserial returns at most the
requested count.  The first component records the command bytes written
(the single burst command byte, ASCII 115 = s); the second component is
the outcome: the decoded uint16 array, or the IOError raised on an
incomplete read. -/

def capture_burst (raw : List ℕ) (samples : ℕ) : List ℕ × Except String (List ℕ) :=
  ⟨[115],
    if raw.length = samples * 2 then Except.ok (decodeU16LE raw)
    else Except.error "Incomplete read"⟩

/-- One loop iteration of DAQInterface.stream_generator from src/daq.py:
the stream command byte (ASCII 118 = v) is written, a read of
chunk_size * 2 bytes is requested and the transport returns `raw`; a full
chunk is decoded and yielded, while a short read yields nothing for this
iteration and the loop continues.  Components: bytes written, read size
requested, chunk yielded (none on a short read). -/

def stream_step (raw : List ℕ) (chunk_size : ℕ) : List ℕ × ℕ × Option (List ℕ) :=
  ⟨[118], chunk_size * 2,
    if raw.length = chunk_size * 2 then some (decodeU16LE raw) else none⟩

/-- The unbounded stream of DAQInterface.stream_generator: `reads k` is
the byte string the transport returns at loop iteration k, and the value
at k describes what iteration k writes, requests and yields.  The
function is total in k: the loop never terminates on its own. -/

def stream_generator (reads : ℕ → List ℕ) (chunk_size : ℕ) (k : ℕ) :
    List ℕ × ℕ × Option (List ℕ) :=
  stream_step (reads k) chunk_size

/-- Arithmetic mean of a list, the semantics of np.mean (sum divided by
length; 0 on the empty list under rational division by zero). -/

def npMean (l : List ℚ) : ℚ := l.sum / l.length

/-- Minimum of a list, the semantics of np.min on a nonempty array. -/

def npMin (l : List ℚ) : ℚ := l.foldl min l.headI

/-- Maximum of a list, the semantics of np.max on a nonempty array. -/

def npMax (l : List ℚ) : ℚ := l.foldl max l.headI

/-- Embedding of remove_dc from src/dsp.py: subtract the arithmetic mean
from every element. -/

def remove_dc (signal : List ℚ) : List ℚ :=
  signal.map (fun x => x - npMean signal)

/-- Embedding of check_signal_health from src/diagnostics.py.  The
printed report is dropped; only the returned boolean verdict is kept.
Clipping (min at most 0.02 V or max at least V_REF - 0.05 V) makes the
signal unhealthy; otherwise a peak-to-peak swing below 0.05 V makes it
unhealthy; the bias-drift check only prints and leaves the verdict
unchanged, so the verdict is a function of min and max alone. -/

def check_signal_health (voltages : List ℚ) : Bool :=
  let v_min := npMin voltages
  let v_max := npMax voltages
  let v_pp := v_max - v_min
  if v_min ≤ 1 / 50 ∨ V_REF - 1 / 20 ≤ v_max then false
  else if v_pp < 1 / 20 then false
  else true

/-- Rising-edge crossing of software_trigger in src/dsp.py: position i of
the numpy mask (signal index i is below the threshold and index i + 1 is
at or above it), with i + 1 a valid index. -/

def isCrossing (signal : List ℚ) (threshold : ℚ) (i : ℕ) : Prop :=
  i + 1 < signal.length ∧ signal.getD i 0 < threshold ∧ threshold ≤ signal.getD (i + 1) 0

instance (signal : List ℚ) (threshold : ℚ) (i : ℕ) :
    Decidable (isCrossing signal threshold i) := by
  unfold isCrossing; infer_instance

/-- Index of the first rising-edge crossing, following the line
crossings = np.where((signal[:-1] < threshold) & (signal[1:] >= threshold))[0]
and the crossings.size > 0 test of software_trigger in src/dsp.py. -/

def findCrossing (threshold : ℚ) : List ℚ → Option ℕ
  | x :: y :: rest =>
      if x < threshold ∧ threshold ≤ y then some 0
      else (findCrossing threshold (y :: rest)).map (· + 1)
  | _ => none

/-- Embedding of software_trigger from src/dsp.py: cyclically rotate the
signal so the first rising-edge crossing lands at index 0 (np.roll by the
negated crossing index); return the signal unchanged when no crossing
exists. -/

def software_trigger (signal : List ℚ) (threshold : ℚ) : List ℚ :=
  match findCrossing threshold signal with
  | some i => signal.rotate i
  | none => signal

/-- Python 3 round with no digits argument (round-half-to-even), as in
int(round(duration * fs)) of generate_log_sweep in src/audio.py and
generate_inverse_filter in src/metrics.py. -/

def pyround (q : ℚ) : ℤ :=
  if q - ⌊q⌋ < 1 / 2 then ⌊q⌋
  else if 1 / 2 < q - ⌊q⌋ then ⌊q⌋ + 1
  else if ⌊q⌋ % 2 = 0 then ⌊q⌋ else ⌊q⌋ + 1

/-- Hann window value at position j of a length n window: the semantics
of scipy.signal.windows.hann(n), symmetric form, which returns all ones
when n is 0 or 1. -/

noncomputable def hannW (n j : ℕ) : ℝ :=
  if n ≤ 1 then 1
  else 1 / 2 - 1 / 2 * Real.cos (2 * Real.pi * j / ((n : ℝ) - 1))

/-- One-sided discrete Fourier transform of a real signal, the exact
semantics of np.fft.rfft on an n-point input: entry k, for k from 0 to
n / 2, is the sum over j below n of x j times exp(-2 pi i j k / n). -/

noncomputable def rfft (x : List ℝ) : List ℂ :=
  (List.range (x.length / 2 + 1)).map (fun (k : ℕ) =>
    ∑ j ∈ Finset.range x.length,
      (x.getD j 0 : ℂ) *
        Complex.exp (-(2 * Real.pi * Complex.I * j * k) / x.length))

/-- Hann-windowed copy of the signal: the line
windowed = signal * spsig.windows.hann(n) of compute_spectrum in
src/dsp.py. -/

noncomputable def hannWindowed (signal : List ℝ) : List ℝ :=
  (List.range signal.length).map (fun (j : ℕ) => signal.getD j 0 * hannW signal.length j)

/-- Embedding of compute_spectrum from src/dsp.py: apply a Hann window,
take the one-sided real FFT, scale the magnitude by 2 / n, and return the
frequency axis k * fs / n (the semantics of np.fft.rfftfreq(n, 1 / fs)).
Frequencies are exact rationals, magnitudes exact reals. -/

noncomputable def compute_spectrum (signal : List ℝ) (fs : ℚ) : List ℚ × List ℝ :=
  let n := signal.length
  let fft_mag := (rfft (hannWindowed signal)).map (fun z => 2 / (n : ℝ) * Complex.abs z)
  let freq_axis := (List.range (n / 2 + 1)).map (fun (k : ℕ) => (k : ℚ) * fs / (n : ℚ))
  (freq_axis, fft_mag)

/-- Indices of frequency bins strictly between lo and hi: the boolean
masks (freqs > lo) & (freqs < hi) of calculate_selective_thd in
src/dsp.py, kept as index lists. -/

noncomputable def maskIdx (freqs : List ℚ) (lo hi : ℚ) : List ℕ :=
  (List.range freqs.length).filter
    (fun k => decide (lo < freqs.getD k 0 ∧ freqs.getD k 0 < hi))

/-- Maximum of the magnitudes selected by an index list: np.max(mags[m])
for a boolean mask m with the given true positions (0 when no index is
selected; the numpy call would raise there, and every use below is
guarded by a nonemptiness test exactly as in the source). -/

noncomputable def maxOver (mags : List ℝ) : List ℕ → ℝ
  | [] => 0
  | k :: rest => (rest.map (fun j => mags.getD j 0)).foldl max (mags.getD k 0)

/-- Mean of the magnitudes selected by an index list: np.mean(mags[m]). -/

noncomputable def meanOver (mags : List ℝ) (idx : List ℕ) : ℝ :=
  (idx.map (fun j => mags.getD j 0)).sum / idx.length

/-- Fundamental window of calculate_selective_thd in src/dsp.py: the
bins strictly within 5 Hz of the fundamental (the mask fund_mask). -/

noncomputable def thdFundIdx (signal : List ℝ) (fs fund : ℚ) : List ℕ :=
  maskIdx (compute_spectrum signal fs).1 (fund - 5) (fund + 5)

/-- Fundamental magnitude fund_mag = np.max(mags[fund_mask]) of
calculate_selective_thd in src/dsp.py. -/

noncomputable def thdFundMag (signal : List ℝ) (fs fund : ℚ) : ℝ :=
  maxOver (compute_spectrum signal fs).2 (thdFundIdx signal fs fund)

/-- One pass of the harmonic loop of calculate_selective_thd in
src/dsp.py for harmonic i: find the bins within 5 Hz of fund * i, skip
when empty; estimate the local noise floor as the mean over the band 3
windows wide with the peak window excluded (0 when that band is empty);
keep the noise-subtracted peak floored at zero and contribute its square
when positive. -/

noncomputable def harmTerm (freqs : List ℚ) (mags : List ℝ) (fund : ℚ) (i : ℕ) : ℝ :=
  let target := fund * i
  let mask := maskIdx freqs (target - 5) (target + 5)
  if mask = [] then 0
  else
    let noise_idx := (maskIdx freqs (target - 15) (target + 15)).filter
      (fun k => decide (k ∉ mask))
    let local_noise := if noise_idx = [] then 0 else meanOver mags noise_idx
    let h_mag := max 0 (maxOver mags mask - local_noise)
    if 0 < h_mag then h_mag ^ 2 else 0

/-- Embedding of calculate_selective_thd from src/dsp.py: compute the
spectrum, return 0.0 when no bin lies strictly within 5 Hz of the
fundamental, otherwise divide the root of the summed surviving harmonic
squares by the fundamental magnitude and scale by 100.  The code applies
the division unconditionally in the nonempty case; real division is
total in this embedding, while numpy produces NaN when the fundamental
magnitude is zero. -/

noncomputable def calculate_selective_thd (signal_arr : List ℝ) (fs : ℚ)
    (fundamental_freq : ℚ) (n_harmonics : ℕ) : ℝ :=
  if thdFundIdx signal_arr fs fundamental_freq = [] then 0
  else
    Real.sqrt (∑ i ∈ Finset.Icc 2 n_harmonics,
      harmTerm (compute_spectrum signal_arr fs).1 (compute_spectrum signal_arr fs).2
        fundamental_freq i) /
      thdFundMag signal_arr fs fundamental_freq * 100

/-- State of the ambient numpy random generator, modelled as a stream of
pregenerated values and a position into it.  The np.random.uniform call
in the noise branch of generate_wave_block reads from and advances this
ambient state; no other branch touches it. -/

structure RngState where
  seq : ℕ → ℝ
  pos : ℕ

/-- Drawing m values from the ambient generator, the semantics of
np.random.uniform(-1.0, 1.0, size=m) relative to an RngState. -/

def uniformDraw (rng : RngState) (m : ℕ) : List ℝ × RngState :=
  ((List.range m).map (fun (j : ℕ) => rng.seq (rng.pos + j)), ⟨rng.seq, rng.pos + m⟩)

/-- np.sign on a real value. -/

noncomputable def npSign (x : ℝ) : ℝ :=
  if 0 < x then 1 else if x < 0 then -1 else 0

/-- Embedding of generate_wave_block from src/audio.py: stateless
waveform synthesis over a time vector for the five shape tags, the noise
branch drawing len t values from the ambient random generator, and a
ValueError for any other tag. -/

noncomputable def generate_wave_block (shape : String) (t : List ℝ) (f_hz amp : ℝ)
    (rng : RngState) : Except String (List ℝ × RngState) :=
  if shape = "sine" then
    Except.ok (t.map (fun ti => Real.sin (2 * Real.pi * f_hz * ti) * amp), rng)
  else if shape = "square" then
    Except.ok (t.map (fun ti => npSign (Real.sin (2 * Real.pi * f_hz * ti)) * amp), rng)
  else if shape = "saw" then
    Except.ok (t.map (fun ti => 2 * (ti * f_hz - (⌊1 / 2 + ti * f_hz⌋ : ℝ)) * amp), rng)
  else if shape = "triangle" then
    Except.ok
      (t.map (fun ti => (2 * |2 * (ti * f_hz - (⌊ti * f_hz + 1 / 2⌋ : ℝ))| - 1) * amp), rng)
  else if shape = "noise" then
    let d := uniformDraw rng t.length
    Except.ok (d.1.map (fun x => x * amp), d.2)
  else Except.error ("Unknown shape: " ++ shape)

/-- Embedding of generate_log_sweep from src/audio.py: validate
0 < f_start < f_end (ValueError otherwise), then sample
amp * sin(B * (R^t - 1)) with R = (f_end / f_start)^(1 / duration) and
B = 2 pi f_start / ln R at n = round(duration * fs) points t = j / fs. -/

noncomputable def generate_log_sweep (f_start f_end duration : ℚ) (fs : ℤ) (amp : ℚ) :
    Except String (List ℝ) :=
  if ¬(0 < f_start ∧ f_start < f_end) then Except.error "Require 0 < f_start < f_end"
  else
    let n := (pyround (duration * fs)).toNat
    let R : ℝ := ((f_end : ℝ) / (f_start : ℝ)) ^ ((1 : ℝ) / (duration : ℝ))
    let B : ℝ := 2 * Real.pi * (f_start : ℝ) / Real.log R
    Except.ok ((List.range n).map (fun (j : ℕ) =>
      (amp : ℝ) * Real.sin (B * (R ^ ((j : ℝ) / (fs : ℝ)) - 1))))

/-- Full linear convolution: the exact-arithmetic value of
spsig.fftconvolve(a, b, mode="full"), whose length is la + lb - 1 and
whose entry k is the sum of a i * b (k - i); FFT-based convolution
computes exactly this in exact arithmetic. -/

noncomputable def convFull (a b : List ℝ) : List ℝ :=
  if a.length = 0 ∨ b.length = 0 then []
  else
    (List.range (a.length + b.length - 1)).map (fun (k : ℕ) =>
      ∑ i ∈ Finset.range (k + 1), a.getD i 0 * b.getD (k - i) 0)

/-- Full cross-correlation spsig.correlate(a, b, mode="full") of real
signals: the full convolution of a with the reversal of b. -/

noncomputable def correlateFull (a b : List ℝ) : List ℝ :=
  convFull a b.reverse

/-- First index of the maximum of the remaining list, continuing a scan
that has seen i values with current best index best_i and best value
best_v: np.argmax keeps the first maximum, replacing only on a strictly
greater value. -/

noncomputable def argmaxAux : List ℝ → ℕ → ℕ → ℝ → ℕ
  | [], _, best_i, _ => best_i
  | x :: rest, i, best_i, best_v =>
      if best_v < x then argmaxAux rest (i + 1) i x
      else argmaxAux rest (i + 1) best_i best_v

/-- np.argmax over a list (0 on the empty list, where numpy raises; all
uses below are on nonempty lists). -/

noncomputable def argmaxList : List ℝ → ℕ
  | [] => 0
  | x :: rest => argmaxAux rest 1 0 x

/-- Lag axis entry k of spsig.correlation_lags(la, lb, mode="full"),
which is arange(-lb + 1, la). -/

def lagOf (lb k : ℕ) : ℤ := (k : ℤ) - ((lb : ℤ) - 1)

/-- np.roll(l, -lag): output position j holds input position
(j + lag) mod length. -/

def rollNeg {α : Type} (l : List α) (lag : ℤ) : List α :=
  l.rotate ((lag % (l.length : ℤ)).toNat)

/-- Embedding of smart_align from src/dsp.py: full cross-correlation of
the target against the reference, lag at the correlation argmax, and the
target rolled by the negated lag (both branches of the source if/else
perform the identical roll). -/

noncomputable def smart_align (sig_ref sig_target : List ℝ) : List ℝ :=
  let correlation := correlateFull sig_target sig_ref
  let lag := lagOf sig_ref.length (argmaxList correlation)
  rollNeg sig_target lag

/-- Maximum absolute value of a list: np.max(np.abs(l)) on a nonempty
list (absolute values are nonnegative, so folding from 0 yields the same
value). -/

noncomputable def maxAbs (l : List ℝ) : ℝ := (l.map (fun x => |x|)).foldl max 0

/-- Embedding of generate_inverse_filter from src/metrics.py: regenerate
the ideal sweep at n = round(duration * fs) points, weight it by the
exponential envelope w(t) = exp(t ln R / duration), time-reverse the
weighted sweep and normalize by its peak magnitude.  When n = 0 the
normalization calls np.max on an empty array, which raises ValueError;
that failure is the none value here. -/

noncomputable def generate_inverse_filter (f_start f_end duration fs : ℚ) :
    Option (List ℝ) :=
  if (pyround (duration * fs)).toNat = 0 then none
  else
    let n := (pyround (duration * fs)).toNat
    let R : ℝ := ((f_end : ℝ) / (f_start : ℝ)) ^ ((1 : ℝ) / (duration : ℝ))
    let B : ℝ := 2 * Real.pi * (f_start : ℝ) / Real.log R
    let weighted := (List.range n).map (fun (j : ℕ) =>
      Real.sin (B * (R ^ ((j : ℝ) / (fs : ℝ)) - 1)) *
        Real.exp ((j : ℝ) / (fs : ℝ) * Real.log R / (duration : ℝ)))
    let inv0 := weighted.reverse
    some (inv0.map (fun x => x / maxAbs inv0))

/-- Embedding of compute_impulse_response from src/metrics.py: build the
inverse filter, convolve the captured response with it in full mode, and
report the full convolution together with the absolute index of the
magnitude peak found by searching only its second half. -/

noncomputable def compute_impulse_response (sig_dut : List ℝ)
    (fs f_start f_end duration : ℚ) : Option (List ℝ × ℕ) :=
  match generate_inverse_filter f_start f_end duration fs with
  | none => none
  | some inv_filter =>
      let ir_raw := convFull sig_dut inv_filter
      let search_start := ir_raw.length / 2
      let peak_idx := search_start +
        argmaxList ((ir_raw.drop search_start).map (fun x => |x|))
      some (ir_raw, peak_idx)

theorem decodeU16LE_length : ∀ l : List ℕ, (decodeU16LE l).length = l.length / 2
  | [] => by simp [decodeU16LE]
  | [_] => by simp [decodeU16LE]
  | _ :: _ :: rest => by
      simp only [decodeU16LE, List.length_cons, decodeU16LE_length rest]
      omega

theorem decodeU16LE_getD :
    ∀ (l : List ℕ) (k : ℕ), 2 * k + 1 < l.length →
      (decodeU16LE l).getD k 0 = l.getD (2 * k) 0 + 256 * l.getD (2 * k + 1) 0
  | [], k, h => by simp at h
  | [_], k, h => by simp at h
  | lo :: hi :: rest, 0, _ => by simp [decodeU16LE]
  | lo :: hi :: rest, k + 1, h => by
      have hr : 2 * k + 1 < rest.length := by
        simp only [List.length_cons] at h; omega
      have ih := decodeU16LE_getD rest k hr
      have e2 : 2 * (k + 1) = (2 * k + 1) + 1 := by omega
      simp only [decodeU16LE, List.getD_cons_succ, e2]
      exact ih

theorem decodeU16LE_lt :
    ∀ l : List ℕ, (∀ b ∈ l, b < 256) → ∀ v ∈ decodeU16LE l, v < 65536
  | [], _, v, hv => by simp [decodeU16LE] at hv
  | [_], _, v, hv => by simp [decodeU16LE] at hv
  | lo :: hi :: rest, hb, v, hv => by
      simp only [decodeU16LE, List.mem_cons] at hv
      rcases hv with rfl | hv
      · have h1 : lo < 256 := hb lo (by simp)
        have h2 : hi < 256 := hb hi (by simp)
        omega
      · exact decodeU16LE_lt rest (fun b hbm => hb b (by simp [hbm])) v hv

/-- C1: on a connected session, capture_burst writes the single burst
command byte, and when the transport returns exactly samples * 2 bytes
it yields exactly the samples decoded as little-endian unsigned 16-bit
integers; when fewer bytes arrive it raises an IOError and no truncated
or partial array is returned. -/

theorem capture_burst_spec (raw : List ℕ) (samples : ℕ)
    (hbytes : ∀ b ∈ raw, b < 256) :
    (capture_burst raw samples).1 = [115] ∧
    (raw.length = samples * 2 →
      (capture_burst raw samples).2 = Except.ok (decodeU16LE raw) ∧
      (decodeU16LE raw).length = samples ∧
      (∀ k, k < samples →
        (decodeU16LE raw).getD k 0 = raw.getD (2 * k) 0 + 256 * raw.getD (2 * k + 1) 0) ∧
      (∀ v ∈ decodeU16LE raw, v < 65536)) ∧
    (raw.length < samples * 2 →
      (capture_burst raw samples).2 = Except.error "Incomplete read") := by
  refine ⟨rfl, ?_, ?_⟩
  · intro h
    refine ⟨by simp [capture_burst, h], ?_, ?_, decodeU16LE_lt raw hbytes⟩
    · rw [decodeU16LE_length, h]; omega
    · intro k hk
      exact decodeU16LE_getD raw k (by omega)
  · intro h
    simp [capture_burst, Nat.ne_of_lt h]

theorem capture_burst_witness :
    (∀ b ∈ [7, 1, 255, 255], b < 256) ∧
    (capture_burst [7, 1, 255, 255] 2).2 = Except.ok [263, 65535] ∧
    (capture_burst [7, 1] 2).2 = Except.error "Incomplete read" := by
  refine ⟨by decide, ?_, ?_⟩
  · have h := (capture_burst_spec [7, 1, 255, 255] 2 (by decide)).2.1 (by decide)
    simpa [decodeU16LE] using h.1
  · exact (capture_burst_spec [7, 1] 2 (by decide)).2.2 (by decide)

/-- C2: every iteration of stream_generator writes the stream command
byte and requests chunk_size * 2 bytes; every chunk it ever yields has
exactly chunk_size samples decoded from that full read; a read returning
fewer than chunk_size * 2 bytes makes the iteration yield nothing; and
every iteration k is defined and either yields or retries, so the
generator never terminates on its own. -/

theorem stream_generator_spec (reads : ℕ → List ℕ) (chunk_size : ℕ) :
    ∀ k : ℕ,
      (stream_generator reads chunk_size k).1 = [118] ∧
      (stream_generator reads chunk_size k).2.1 = chunk_size * 2 ∧
      (∀ chunk, (stream_generator reads chunk_size k).2.2 = some chunk →
        chunk.length = chunk_size ∧ chunk = decodeU16LE (reads k)) ∧
      ((reads k).length < chunk_size * 2 →
        (stream_generator reads chunk_size k).2.2 = none) ∧
      ((stream_generator reads chunk_size k).2.2 = none ∨
        (stream_generator reads chunk_size k).2.2 = some (decodeU16LE (reads k))) := by
  intro k
  refine ⟨rfl, rfl, ?_, ?_, ?_⟩
  · intro chunk hc
    unfold stream_generator stream_step at hc
    by_cases h : (reads k).length = chunk_size * 2
    · simp only [h, if_true, eq_self_iff_true, Option.some.injEq] at hc
      subst hc
      refine ⟨?_, rfl⟩
      rw [decodeU16LE_length, h]; omega
    · simp [h] at hc
  · intro h
    unfold stream_generator stream_step
    simp [Nat.ne_of_lt h]
  · unfold stream_generator stream_step
    by_cases h : (reads k).length = chunk_size * 2
    · right; simp [h]
    · left; simp [h]

theorem stream_generator_witness :
    (stream_generator (fun _ => [7, 1]) 1 0).1 = [118] ∧
    (stream_generator (fun _ => [7, 1]) 1 0).2.2 = some [263] ∧
    (stream_generator (fun _ => [7]) 1 0).2.2 = none := by
  have h1 := stream_generator_spec (fun _ => [7, 1]) 1 0
  have h2 := stream_generator_spec (fun _ => [7]) 1 0
  refine ⟨h1.1, ?_, h2.2.2.2.1 (by decide)⟩
  rcases h1.2.2.2.2 with h | h
  · exact absurd h (by decide)
  · simpa [decodeU16LE] using h

theorem sum_map_sub_const (l : List ℚ) (c : ℚ) :
    (l.map (fun x => x - c)).sum = l.sum - l.length * c := by
  induction l with
  | nil => simp
  | cons a t ih => simp [ih]; ring

/-- C10: remove_dc subtracts exactly the arithmetic mean of its input
from every element, the mean of its output is exactly 0 (exact
arithmetic), and it is idempotent. -/

theorem remove_dc_spec (signal : List ℚ) (h : signal ≠ []) :
    remove_dc signal = signal.map (fun x => x - npMean signal) ∧
    npMean (remove_dc signal) = 0 ∧
    remove_dc (remove_dc signal) = remove_dc signal := by
  have hlen : (signal.length : ℚ) ≠ 0 := by
    have := List.length_pos.mpr h
    exact_mod_cast Nat.pos_iff_ne_zero.mp this
  have hmean : npMean (remove_dc signal) = 0 := by
    unfold remove_dc npMean
    rw [sum_map_sub_const, List.length_map]
    have hz : signal.sum - (signal.length : ℚ) * (signal.sum / signal.length) = 0 := by
      field_simp
    rw [hz, zero_div]
  refine ⟨rfl, hmean, ?_⟩
  conv_lhs => rw [remove_dc, hmean]
  simp

theorem remove_dc_witness :
    ([1, 2, 3] : List ℚ) ≠ [] ∧ npMean (remove_dc [1, 2, 3]) = 0 ∧
    remove_dc (remove_dc [1, 2, 3]) = remove_dc [1, 2, 3] := by
  have h := remove_dc_spec [1, 2, 3] (by simp)
  exact ⟨by simp, h.2.1, h.2.2⟩

/-- C9: for a nonempty voltage list with no rail contact (min above
0.02 V and max below V_REF - 0.05 V), check_signal_health returns false
exactly when the peak-to-peak swing is below 0.05 V and true otherwise;
any rail contact (min at most 0.02 V or max at least V_REF - 0.05 V, in
particular max equal to V_REF) returns false; and the verdict is a
function of min and max alone, so the bias-drift condition on the mean
never changes it. -/

theorem check_signal_health_spec :
    (∀ l : List ℚ, l ≠ [] → 1 / 50 < npMin l → npMax l < V_REF - 1 / 20 →
      npMax l - npMin l < 1 / 20 → check_signal_health l = false) ∧
    (∀ l : List ℚ, l ≠ [] → 1 / 50 < npMin l → npMax l < V_REF - 1 / 20 →
      ¬(npMax l - npMin l < 1 / 20) → check_signal_health l = true) ∧
    (∀ l : List ℚ, l ≠ [] → (npMin l ≤ 1 / 50 ∨ V_REF - 1 / 20 ≤ npMax l) →
      check_signal_health l = false) ∧
    (∀ l : List ℚ, l ≠ [] → npMax l = V_REF → check_signal_health l = false) ∧
    (∀ l l2 : List ℚ, npMin l = npMin l2 → npMax l = npMax l2 →
      check_signal_health l = check_signal_health l2) := by
  refine ⟨?_, ?_, ?_, ?_, ?_⟩
  · intro l _ h1 h2 h3
    have hcl : ¬(npMin l ≤ 1 / 50 ∨ V_REF - 1 / 20 ≤ npMax l) := by
      push_neg; exact ⟨h1, h2⟩
    simp only [check_signal_health]
    rw [if_neg hcl, if_pos h3]
  · intro l _ h1 h2 h3
    have hcl : ¬(npMin l ≤ 1 / 50 ∨ V_REF - 1 / 20 ≤ npMax l) := by
      push_neg; exact ⟨h1, h2⟩
    simp only [check_signal_health]
    rw [if_neg hcl, if_neg h3]
  · intro l _ h
    simp only [check_signal_health]
    rw [if_pos h]
  · intro l _ h
    have hcl : npMin l ≤ 1 / 50 ∨ V_REF - 1 / 20 ≤ npMax l := by
      right; rw [h]; norm_num [V_REF]
    simp only [check_signal_health]
    rw [if_pos hcl]
  · intro l l2 h1 h2
    simp only [check_signal_health]
    rw [h1, h2]

theorem check_signal_health_witness :
    (([8/5, 33/20] : List ℚ) ≠ [] ∧ 1 / 50 < npMin [8/5, 33/20] ∧
      npMax [8/5, 33/20] < V_REF - 1 / 20 ∧
      ¬(npMax [8/5, 33/20] - npMin [8/5, 33/20] < 1 / 20)) ∧
    check_signal_health [8/5, 33/20] = true := by
  have e1 : npMin ([8/5, 33/20] : List ℚ) = 8/5 := by
    norm_num [npMin, min_def]
  have e2 : npMax ([8/5, 33/20] : List ℚ) = 33/20 := by
    norm_num [npMax, max_def]
  refine ⟨⟨by simp, ?_, ?_, ?_⟩, ?_⟩
  · rw [e1]; norm_num
  · rw [e2]; norm_num [V_REF]
  · rw [e1, e2]; norm_num
  · refine (check_signal_health_spec.2.1) [8/5, 33/20] (by simp) ?_ ?_ ?_
    · rw [e1]; norm_num
    · rw [e2]; norm_num [V_REF]
    · rw [e1, e2]; norm_num

theorem findCrossing_first (threshold : ℚ) :
    ∀ (l : List ℚ) (i : ℕ), i + 1 < l.length →
      l.getD i 0 < threshold → threshold ≤ l.getD (i + 1) 0 →
      (∀ j, j < i → ¬(l.getD j 0 < threshold ∧ threshold ≤ l.getD (j + 1) 0)) →
      findCrossing threshold l = some i
  | [], i, h, _, _, _ => by simp at h
  | [_], i, h, _, _, _ => by simp at h
  | x :: y :: rest, 0, _, hlt, hge, _ => by
      rw [List.getD_cons_zero] at hlt
      rw [List.getD_cons_succ, List.getD_cons_zero] at hge
      unfold findCrossing
      rw [if_pos ⟨hlt, hge⟩]
  | x :: y :: rest, i + 1, hlen, hlt, hge, hmin => by
      have hxy : ¬(x < threshold ∧ threshold ≤ y) := by
        have := hmin 0 (Nat.succ_pos i)
        simpa using this
      have hlen2 : i + 1 < (y :: rest).length := by
        simp only [List.length_cons] at hlen ⊢; omega
      have hlt2 : (y :: rest).getD i 0 < threshold := by
        rwa [List.getD_cons_succ] at hlt
      have hge2 : threshold ≤ (y :: rest).getD (i + 1) 0 := by
        rwa [List.getD_cons_succ] at hge
      have hmin2 : ∀ j, j < i →
          ¬((y :: rest).getD j 0 < threshold ∧ threshold ≤ (y :: rest).getD (j + 1) 0) := by
        intro j hj hc
        exact hmin (j + 1) (by omega)
          (by rw [List.getD_cons_succ, List.getD_cons_succ]; exact hc)
      have ih := findCrossing_first threshold (y :: rest) i hlen2 hlt2 hge2 hmin2
      unfold findCrossing
      rw [if_neg hxy, ih]
      rfl

theorem findCrossing_eq_none (threshold : ℚ) :
    ∀ l : List ℚ,
      (∀ i, i + 1 < l.length →
        ¬(l.getD i 0 < threshold ∧ threshold ≤ l.getD (i + 1) 0)) →
      findCrossing threshold l = none
  | [], _ => by unfold findCrossing; rfl
  | [_], _ => by unfold findCrossing; rfl
  | x :: y :: rest, h => by
      have hxy : ¬(x < threshold ∧ threshold ≤ y) := by
        have := h 0 (by simp only [List.length_cons]; omega)
        simpa using this
      have h2 : ∀ i, i + 1 < (y :: rest).length →
          ¬((y :: rest).getD i 0 < threshold ∧ threshold ≤ (y :: rest).getD (i + 1) 0) := by
        intro i hi hc
        exact h (i + 1) (by simp only [List.length_cons] at hi ⊢; omega)
          (by rw [List.getD_cons_succ, List.getD_cons_succ]; exact hc)
      have ih := findCrossing_eq_none threshold (y :: rest) h2
      unfold findCrossing
      rw [if_neg hxy, ih]
      rfl

/-- C5: when some rising-edge crossing exists, software_trigger returns
the cyclic left rotation of the signal by the smallest crossing index i,
so the output has the same length and the same multiset of values and
output position j holds input position (i + j) mod length; when no
crossing exists it returns the signal unchanged. -/

theorem software_trigger_spec (signal : List ℚ) (threshold : ℚ) :
    (∀ i, isCrossing signal threshold i →
      (∀ j, j < i → ¬isCrossing signal threshold j) →
      software_trigger signal threshold = signal.rotate i ∧
      (software_trigger signal threshold).length = signal.length ∧
      (software_trigger signal threshold).Perm signal ∧
      (∀ j, j < signal.length →
        (software_trigger signal threshold).getD j 0 =
          signal.getD ((i + j) % signal.length) 0)) ∧
    ((∀ i, ¬isCrossing signal threshold i) →
      software_trigger signal threshold = signal) := by
  constructor
  · intro i hi hmin
    obtain ⟨hlen, hlt, hge⟩ := hi
    have hmin2 : ∀ j, j < i →
        ¬(signal.getD j 0 < threshold ∧ threshold ≤ signal.getD (j + 1) 0) := by
      intro j hj hc
      exact hmin j hj ⟨by omega, hc.1, hc.2⟩
    have hfc := findCrossing_first threshold signal i hlen hlt hge hmin2
    have heq : software_trigger signal threshold = signal.rotate i := by
      unfold software_trigger; rw [hfc]
    refine ⟨heq, by rw [heq, List.length_rotate], by rw [heq]; exact signal.rotate_perm i, ?_⟩
    intro j hj
    have hpos : 0 < signal.length := by omega
    have hj2 : j < (signal.rotate i).length := by rwa [List.length_rotate]
    rw [heq, List.getD_eq_getElem _ _ hj2, List.getElem_rotate,
      List.getD_eq_getElem _ _ (Nat.mod_lt _ hpos)]
    congr 1
    rw [Nat.add_comm j i]
  · intro hnone
    have hfc := findCrossing_eq_none threshold signal
      (fun i hl hc => hnone i ⟨hl, hc.1, hc.2⟩)
    unfold software_trigger
    rw [hfc]

theorem software_trigger_witness :
    isCrossing [0, 2, 1] 1 0 ∧
    software_trigger [0, 2, 1] 1 = [0, 2, 1].rotate 0 ∧
    (software_trigger [0, 2, 1] 1).Perm [0, 2, 1] := by
  have h := (software_trigger_spec [0, 2, 1] 1).1 0 (by decide)
    (fun j hj => absurd hj (Nat.not_lt_zero j))
  exact ⟨by decide, h.1, h.2.2.1⟩

theorem getD_map_range {α : Type} (f : ℕ → α) (m k : ℕ) (hk : k < m) (d : α) :
    ((List.range m).map f).getD k d = f k := by
  rw [List.getD_eq_getElem _ _ (by simpa using hk)]
  simp

theorem rfft_length (x : List ℝ) : (rfft x).length = x.length / 2 + 1 := by
  unfold rfft
  rw [List.length_map, List.length_range]

theorem hannWindowed_length (signal : List ℝ) :
    (hannWindowed signal).length = signal.length := by
  simp [hannWindowed]

/-- C4: for an N-sample signal, compute_spectrum returns exactly
N / 2 + 1 frequency values and N / 2 + 1 magnitude values; frequency k
equals k * fs / N for every k up to N / 2 (so entry 0 is 0, and the last
entry is exactly fs / 2 when N is even); and magnitude k equals 2 / N
times the absolute value of entry k of the one-sided real FFT of the
Hann-windowed signal. -/

theorem compute_spectrum_spec (signal : List ℝ) (fs : ℚ) (h : signal ≠ []) :
    (compute_spectrum signal fs).1.length = signal.length / 2 + 1 ∧
    (compute_spectrum signal fs).2.length = signal.length / 2 + 1 ∧
    (∀ k, k ≤ signal.length / 2 →
      (compute_spectrum signal fs).1.getD k 0 = k * fs / signal.length) ∧
    (compute_spectrum signal fs).1.getD 0 0 = 0 ∧
    (2 ∣ signal.length →
      (compute_spectrum signal fs).1.getD (signal.length / 2) 0 = fs / 2) ∧
    (∀ k, k ≤ signal.length / 2 →
      (compute_spectrum signal fs).2.getD k 0 =
        2 / (signal.length : ℝ) * Complex.abs ((rfft (hannWindowed signal)).getD k 0)) := by
  have hn : signal.length ≠ 0 := fun hc => h (List.eq_nil_of_length_eq_zero hc)
  have hfreq : ∀ k, k ≤ signal.length / 2 →
      (compute_spectrum signal fs).1.getD k 0 = k * fs / signal.length := by
    intro k hk
    simp only [compute_spectrum]
    exact getD_map_range (fun (k : ℕ) => (k : ℚ) * fs / (signal.length : ℚ))
      (signal.length / 2 + 1) k (by omega) 0
  refine ⟨?_, ?_, hfreq, ?_, ?_, ?_⟩
  · simp only [compute_spectrum]
    rw [List.length_map, List.length_range]
  · simp only [compute_spectrum]
    rw [List.length_map, rfft_length, hannWindowed_length]
  · rw [hfreq 0 (Nat.zero_le _)]
    simp
  · intro heven
    obtain ⟨m, hm⟩ := heven
    have hm0 : m ≠ 0 := by omega
    rw [hfreq (signal.length / 2) le_rfl, hm]
    have : 2 * m / 2 = m := by omega
    rw [this]
    have hmq : (m : ℚ) ≠ 0 := by exact_mod_cast hm0
    push_cast
    field_simp
    ring
  · intro k hk
    have hk2 : k < (rfft (hannWindowed signal)).length := by
      rw [rfft_length, hannWindowed_length]; omega
    unfold compute_spectrum
    rw [List.getD_eq_getElem _ _ (by simpa using hk2), List.getElem_map,
      List.getD_eq_getElem _ _ hk2]

theorem compute_spectrum_witness :
    ([(1 : ℝ)] ≠ ([] : List ℝ)) ∧
    (compute_spectrum [(1 : ℝ)] 2).1.length = 1 ∧
    (compute_spectrum [(1 : ℝ)] 2).2.length = 1 ∧
    (compute_spectrum [(1 : ℝ)] 2).1.getD 0 0 = 0 := by
  have h := compute_spectrum_spec [(1 : ℝ)] 2 (by simp)
  exact ⟨by simp, by simpa using h.1, by simpa using h.2.1, h.2.2.2.1⟩

theorem harmTerm_nonneg (freqs : List ℚ) (mags : List ℝ) (fund : ℚ) (i : ℕ) :
    0 ≤ harmTerm freqs mags fund i := by
  simp only [harmTerm]
  split_ifs <;> positivity

/-- C7 (amended): calculate_selective_thd returns the documented
fallback 0.0 whenever no frequency bin lies strictly within 5 Hz of the
fundamental; whenever such a bin exists it returns
100 * sqrt(harmonic_sum_sq) / fund_mag with a nonnegative
harmonic_sum_sq, which is a well-defined finite value whenever fund_mag
is nonzero — but fund_mag itself can be zero (for instance on an
all-zero signal), and that degenerate division is not guarded. -/

theorem calculate_selective_thd_spec (signal : List ℝ) (fs fund : ℚ) (nh : ℕ) :
    (thdFundIdx signal fs fund = [] → calculate_selective_thd signal fs fund nh = 0) ∧
    (thdFundIdx signal fs fund ≠ [] →
      calculate_selective_thd signal fs fund nh =
        Real.sqrt (∑ i ∈ Finset.Icc 2 nh,
          harmTerm (compute_spectrum signal fs).1 (compute_spectrum signal fs).2 fund i) /
          thdFundMag signal fs fund * 100) ∧
    0 ≤ ∑ i ∈ Finset.Icc 2 nh,
      harmTerm (compute_spectrum signal fs).1 (compute_spectrum signal fs).2 fund i := by
  refine ⟨?_, ?_, ?_⟩
  · intro he
    simp only [calculate_selective_thd]
    rw [if_pos he]
  · intro hne
    simp only [calculate_selective_thd]
    rw [if_neg hne]
  · exact Finset.sum_nonneg fun i _ => harmTerm_nonneg _ _ _ _

/-- C7 counterexample: on the all-zero two-sample signal at sample rate
160 Hz with the default fundamental 82.4 Hz, the 80 Hz bin lies strictly
within 5 Hz of the fundamental, so the fundamental window is nonempty
and the fallback does not apply, yet the fundamental magnitude the code
divides by is exactly 0 — refuting the claim that either the window is
empty or the divisor is nonzero. -/

theorem calculate_selective_thd_counterexample :
    thdFundIdx [(0 : ℝ), 0] 160 (412 / 5) ≠ [] ∧
    thdFundMag [(0 : ℝ), 0] 160 (412 / 5) = 0 := by
  have hfreqs : (compute_spectrum [(0 : ℝ), 0] 160).1 = [0, 80] := by
    simp only [compute_spectrum, List.length_cons, List.length_nil]
    norm_num [List.range_succ]
  have hidx : thdFundIdx [(0 : ℝ), 0] 160 (412 / 5) = [1] := by
    simp only [thdFundIdx, hfreqs, maskIdx]
    norm_num [List.range_succ, List.filter]
  have hwin : hannWindowed [(0 : ℝ), 0] = [0, 0] := by
    have hz : ∀ j : ℕ, ([(0 : ℝ), 0]).getD j 0 = 0 := fun j =>
      match j with
      | 0 => rfl
      | 1 => rfl
      | _ + 2 => rfl
    simp [hannWindowed, List.range_succ, hz]
  have hrfft : rfft [(0 : ℝ), (0 : ℝ)] = [0, 0] := by
    have hz : ∀ j : ℕ, ([(0 : ℝ), 0]).getD j 0 = 0 := fun j =>
      match j with
      | 0 => rfl
      | 1 => rfl
      | _ + 2 => rfl
    have hz2 : ∀ j : ℕ, (([(0 : ℝ), 0][j]?).getD 0) = 0 := fun j =>
      match j with
      | 0 => rfl
      | 1 => rfl
      | _ + 2 => rfl
    simp [rfft, List.range_succ, hz, hz2]
  have hmags : (compute_spectrum [(0 : ℝ), 0] 160).2 = [0, 0] := by
    simp only [compute_spectrum, hwin, hrfft]
    simp
  refine ⟨by rw [hidx]; simp, ?_⟩
  rw [thdFundMag, hidx, hmags]
  simp [maxOver]

theorem calculate_selective_thd_witness :
    thdFundIdx [(0 : ℝ), 0] 160 1000 = [] ∧
    calculate_selective_thd [(0 : ℝ), 0] 160 1000 10 = 0 := by
  have hfreqs : (compute_spectrum [(0 : ℝ), 0] 160).1 = [0, 80] := by
    simp only [compute_spectrum, List.length_cons, List.length_nil]
    norm_num [List.range_succ]
  have he : thdFundIdx [(0 : ℝ), 0] 160 1000 = [] := by
    simp only [thdFundIdx, hfreqs, maskIdx]
    norm_num [List.range_succ, List.filter]
  exact ⟨he, (calculate_selective_thd_spec [(0 : ℝ), 0] 160 1000 10).1 he⟩

/-- C6: generate_log_sweep raises ValueError for every f_start that is
nonpositive or at least f_end and produces no samples there, and
generate_wave_block raises ValueError for every shape tag outside the
five recognized tags; neither substitutes a default value. -/

theorem invalid_parameter_spec :
    (∀ (f_start f_end duration : ℚ) (fs : ℤ) (amp : ℚ),
      f_start ≤ 0 ∨ f_end ≤ f_start →
      generate_log_sweep f_start f_end duration fs amp =
        Except.error "Require 0 < f_start < f_end") ∧
    (∀ (shape : String) (t : List ℝ) (f_hz amp : ℝ) (rng : RngState),
      shape ∉ (["sine", "square", "saw", "triangle", "noise"] : List String) →
      generate_wave_block shape t f_hz amp rng =
        Except.error ("Unknown shape: " ++ shape)) := by
  constructor
  · intro f_start f_end duration fs amp h
    have hng : ¬(0 < f_start ∧ f_start < f_end) := by
      rcases h with h | h
      · exact fun hc => absurd hc.1 (not_lt.mpr h)
      · exact fun hc => absurd hc.2 (not_lt.mpr h)
    simp only [generate_log_sweep]
    rw [if_pos hng]
  · intro shape t f_hz amp rng h
    simp only [List.mem_cons, List.not_mem_nil, or_false, not_or] at h
    obtain ⟨h1, h2, h3, h4, h5⟩ := h
    simp only [generate_wave_block]
    rw [if_neg h1, if_neg h2, if_neg h3, if_neg h4, if_neg h5]

theorem invalid_parameter_witness :
    generate_log_sweep 0 1 1 1 1 = Except.error "Require 0 < f_start < f_end" ∧
    generate_wave_block "ramp" [] 1 1 ⟨fun _ => 0, 0⟩ =
      Except.error ("Unknown shape: " ++ "ramp") := by
  constructor
  · exact invalid_parameter_spec.1 0 1 1 1 1 (Or.inl le_rfl)
  · exact invalid_parameter_spec.2 "ramp" [] 1 1 ⟨fun _ => 0, 0⟩ (by decide)

/-- C8 counterexample: the noise branch of generate_wave_block depends
on the ambient random-generator state, so two successive calls on equal
(t, f_hz, amp) inputs — the second starting from the state the first
call left behind — return different sample lists. -/

theorem generate_wave_block_noise_counterexample :
    Except.map Prod.fst
        (generate_wave_block "noise" [(0 : ℝ)] 1 1 ⟨fun j => (j : ℝ), 0⟩) ≠
      Except.map Prod.fst
        (generate_wave_block "noise" [(0 : ℝ)] 1 1
          ((uniformDraw ⟨fun j => (j : ℝ), 0⟩ 1).2)) := by
  have e1 : Except.map Prod.fst
      (generate_wave_block "noise" [(0 : ℝ)] 1 1 ⟨fun j => (j : ℝ), 0⟩) =
      Except.ok [(0 : ℝ)] := by
    simp [generate_wave_block, uniformDraw, List.range_succ, Except.map]
  have e2 : Except.map Prod.fst
      (generate_wave_block "noise" [(0 : ℝ)] 1 1
        ((uniformDraw ⟨fun j => (j : ℝ), 0⟩ 1).2)) =
      Except.ok [(1 : ℝ)] := by
    simp [generate_wave_block, uniformDraw, List.range_succ, Except.map]
  rw [e1, e2]
  intro hc
  have : (0 : ℝ) = 1 := by
    have := List.head_eq_of_cons_eq (Except.ok.inj hc)
    exact this
  norm_num at this

/-- C8 (amended): for the four deterministic shape tags, the output of
generate_wave_block depends only on (t, f_hz, amp) — the same value list
is produced from any two random-generator states and the state is
returned unchanged — so repeated calls on equal inputs agree; the noise
tag is excluded because its draw advances the ambient generator.  The
spectrum, trigger, THD and alignment functions are pure, so equal inputs
give equal outputs. -/

theorem deterministic_core_spec :
    (∀ shape, shape ∈ (["sine", "square", "saw", "triangle"] : List String) →
      ∀ (t : List ℝ) (f_hz amp : ℝ) (rng rng2 : RngState),
        ∃ v, generate_wave_block shape t f_hz amp rng = Except.ok (v, rng) ∧
          generate_wave_block shape t f_hz amp rng2 = Except.ok (v, rng2)) ∧
    (∀ (x y : List ℝ) (fs : ℚ), x = y → compute_spectrum x fs = compute_spectrum y fs) ∧
    (∀ (x y : List ℚ) (th : ℚ), x = y → software_trigger x th = software_trigger y th) ∧
    (∀ (x y : List ℝ) (fs fund : ℚ) (nh : ℕ), x = y →
      calculate_selective_thd x fs fund nh = calculate_selective_thd y fs fund nh) ∧
    (∀ (r r2 t t2 : List ℝ), r = r2 → t = t2 → smart_align r t = smart_align r2 t2) := by
  refine ⟨?_, ?_, ?_, ?_, ?_⟩
  · intro shape hshape t f_hz amp rng rng2
    simp only [List.mem_cons, List.not_mem_nil, or_false] at hshape
    rcases hshape with rfl | rfl | rfl | rfl
    · exact ⟨t.map (fun ti => Real.sin (2 * Real.pi * f_hz * ti) * amp),
        by simp [generate_wave_block], by simp [generate_wave_block]⟩
    · exact ⟨t.map (fun ti => npSign (Real.sin (2 * Real.pi * f_hz * ti)) * amp),
        by simp [generate_wave_block], by simp [generate_wave_block]⟩
    · exact ⟨t.map (fun ti => 2 * (ti * f_hz - (⌊1 / 2 + ti * f_hz⌋ : ℝ)) * amp),
        by simp [generate_wave_block], by simp [generate_wave_block]⟩
    · exact ⟨t.map (fun ti => (2 * |2 * (ti * f_hz - (⌊ti * f_hz + 1 / 2⌋ : ℝ))| - 1) * amp),
        by simp [generate_wave_block], by simp [generate_wave_block]⟩
  · intro x y fs h; rw [h]
  · intro x y th h; rw [h]
  · intro x y fs fund nh h; rw [h]
  · intro r r2 t t2 h1 h2; rw [h1, h2]

theorem deterministic_core_witness :
    Except.map Prod.fst (generate_wave_block "sine" [(0 : ℝ)] 1 1 ⟨fun _ => 0, 0⟩) =
      Except.map Prod.fst (generate_wave_block "sine" [(0 : ℝ)] 1 1 ⟨fun _ => 0, 5⟩) := by
  obtain ⟨v, h1, h2⟩ := deterministic_core_spec.1 "sine" (by decide) [(0 : ℝ)] 1 1
    ⟨fun _ => 0, 0⟩ ⟨fun _ => 0, 5⟩
  rw [h1, h2]
  rfl

theorem argmaxAux_spec : ∀ (l : List ℝ) (i b_i : ℕ) (b_v : ℝ),
    (argmaxAux l i b_i b_v = b_i ∧ ∀ j, j < l.length → l.getD j 0 ≤ b_v) ∨
    (∃ k, k < l.length ∧ argmaxAux l i b_i b_v = i + k ∧ b_v < l.getD k 0 ∧
      ∀ j, j < l.length → l.getD j 0 ≤ l.getD k 0)
  | [], i, b_i, b_v => Or.inl ⟨rfl, by simp⟩
  | x :: rest, i, b_i, b_v => by
      by_cases hx : b_v < x
      · rcases argmaxAux_spec rest (i + 1) i x with ⟨he, hb⟩ | ⟨k, hk, he, hv, hb⟩
        · right
          refine ⟨0, by simp, ?_, by simpa using hx, ?_⟩
          · simp only [argmaxAux]
            rw [if_pos hx, he, Nat.add_zero]
          · intro j hj
            cases j with
            | zero => simp
            | succ j2 =>
                simp only [List.getD_cons_succ, List.getD_cons_zero]
                exact hb j2 (by simpa using hj)
        · right
          refine ⟨k + 1, by simpa using hk, ?_, ?_, ?_⟩
          · simp only [argmaxAux]
            rw [if_pos hx, he]
            omega
          · simp only [List.getD_cons_succ]
            exact lt_trans hx hv
          · intro j hj
            cases j with
            | zero =>
                simp only [List.getD_cons_succ, List.getD_cons_zero]
                exact le_of_lt hv
            | succ j2 =>
                simp only [List.getD_cons_succ]
                exact hb j2 (by simpa using hj)
      · rcases argmaxAux_spec rest (i + 1) b_i b_v with ⟨he, hb⟩ | ⟨k, hk, he, hv, hb⟩
        · left
          refine ⟨?_, ?_⟩
          · simp only [argmaxAux]
            rw [if_neg hx, he]
          · intro j hj
            cases j with
            | zero => simpa using not_lt.mp hx
            | succ j2 =>
                simp only [List.getD_cons_succ]
                exact hb j2 (by simpa using hj)
        · right
          refine ⟨k + 1, by simpa using hk, ?_, ?_, ?_⟩
          · simp only [argmaxAux]
            rw [if_neg hx, he]
            omega
          · simp only [List.getD_cons_succ]
            exact hv
          · intro j hj
            cases j with
            | zero =>
                simp only [List.getD_cons_succ, List.getD_cons_zero]
                exact le_of_lt (lt_of_le_of_lt (not_lt.mp hx) hv)
            | succ j2 =>
                simp only [List.getD_cons_succ]
                exact hb j2 (by simpa using hj)

theorem argmaxList_spec (l : List ℝ) (h : l ≠ []) :
    argmaxList l < l.length ∧
      ∀ j, j < l.length → l.getD j 0 ≤ l.getD (argmaxList l) 0 := by
  match l with
  | x :: rest =>
    simp only [argmaxList]
    rcases argmaxAux_spec rest 1 0 x with ⟨he, hb⟩ | ⟨k, hk, he, hv, hb⟩
    · rw [he]
      refine ⟨by simp, ?_⟩
      intro j hj
      cases j with
      | zero => simp
      | succ j2 =>
          simp only [List.getD_cons_succ, List.getD_cons_zero]
          exact hb j2 (by simpa using hj)
    · rw [he]
      have hgk : (x :: rest).getD (1 + k) 0 = rest.getD k 0 := by
        rw [Nat.add_comm]
        exact List.getD_cons_succ
      refine ⟨by simp only [List.length_cons]; omega, ?_⟩
      intro j hj
      rw [hgk]
      cases j with
      | zero => simpa using le_of_lt hv
      | succ j2 =>
          simp only [List.getD_cons_succ]
          exact hb j2 (by simpa using hj)

theorem getD_map_abs (l : List ℝ) (k : ℕ) :
    (l.map (fun x => |x|)).getD k 0 = |l.getD k 0| := by
  by_cases hk : k < l.length
  · rw [List.getD_eq_getElem _ _ (by simpa using hk), List.getElem_map,
      List.getD_eq_getElem _ _ hk]
  · rw [List.getD_eq_default _ _ (by simpa using not_lt.mp hk),
      List.getD_eq_default _ _ (not_lt.mp hk)]
    simp

theorem getD_drop_eq (l : List ℝ) (s k : ℕ) :
    (l.drop s).getD k 0 = l.getD (s + k) 0 := by
  by_cases hk : s + k < l.length
  · rw [List.getD_eq_getElem _ _ (by rw [List.length_drop]; omega),
      List.getElem_drop, List.getD_eq_getElem _ _ hk]
  · rw [List.getD_eq_default _ _ (by rw [List.length_drop]; omega),
      List.getD_eq_default _ _ (not_lt.mp hk)]

theorem convFull_length (a b : List ℝ) (ha : a ≠ []) (hb : b ≠ []) :
    (convFull a b).length = a.length + b.length - 1 := by
  have ha2 : a.length ≠ 0 := fun hc => ha (List.eq_nil_of_length_eq_zero hc)
  have hb2 : b.length ≠ 0 := fun hc => hb (List.eq_nil_of_length_eq_zero hc)
  simp only [convFull]
  rw [if_neg (by push_neg; exact ⟨ha2, hb2⟩)]
  rw [List.length_map, List.length_range]

/-- C3 (amended): for a nonempty response and valid sweep parameters
whose sample count n = round(duration * fs) is at least 1,
compute_impulse_response returns the pair (ir, peak_idx) with
ir the full convolution of the response with the inverse filter, of
length len(response) + n - 1 where n is the inverse-filter length;
peak_idx lies in the second half [len / 2, len); and the magnitude at
peak_idx dominates every entry of the second half.  When
round(duration * fs) = 0 the inverse-filter normalization raises
(np.max of an empty array), so the n = 0 case is excluded. -/

theorem compute_impulse_response_spec (sig_dut : List ℝ)
    (fs f_start f_end duration : ℚ) (hs : sig_dut ≠ [])
    (_hf1 : 0 < f_start) (_hf2 : f_start < f_end) (_hd : 0 < duration) (_hfs : 0 < fs)
    (hn : (pyround (duration * fs)).toNat ≠ 0) :
    ∃ ir peak_idx,
      compute_impulse_response sig_dut fs f_start f_end duration = some (ir, peak_idx) ∧
      ir.length = sig_dut.length + (pyround (duration * fs)).toNat - 1 ∧
      ir.length / 2 ≤ peak_idx ∧ peak_idx < ir.length ∧
      ∀ j, ir.length / 2 ≤ j → j < ir.length →
        |ir.getD j 0| ≤ |ir.getD peak_idx 0| := by
  obtain ⟨inv, hinv, hlen⟩ :
      ∃ inv, generate_inverse_filter f_start f_end duration fs = some inv ∧
        inv.length = (pyround (duration * fs)).toNat := by
    simp only [generate_inverse_filter]
    rw [if_neg hn]
    exact ⟨_, rfl, by simp⟩
  have hm : sig_dut.length ≠ 0 := fun hc => hs (List.eq_nil_of_length_eq_zero hc)
  have hinv_ne : inv ≠ [] := by
    intro hc
    rw [hc] at hlen
    exact hn hlen.symm
  have hirlen : (convFull sig_dut inv).length =
      sig_dut.length + (pyround (duration * fs)).toNat - 1 := by
    rw [convFull_length sig_dut inv hs hinv_ne, hlen]
  have hirpos : 0 < (convFull sig_dut inv).length := by
    rw [hirlen]
    have := Nat.pos_of_ne_zero hm
    have := Nat.pos_of_ne_zero hn
    omega
  set ir := convFull sig_dut inv with hir
  set s := ir.length / 2 with hsdef
  have hdrop_ne : (ir.drop s).map (fun x => |x|) ≠ [] := by
    intro hc
    have := congrArg List.length hc
    simp only [List.length_map, List.length_drop, List.length_nil] at this
    omega
  obtain ⟨hidx, hmax⟩ := argmaxList_spec _ hdrop_ne
  have hdlen : ((ir.drop s).map (fun x => |x|)).length = ir.length - s := by
    rw [List.length_map, List.length_drop]
  refine ⟨ir, s + argmaxList ((ir.drop s).map (fun x => |x|)), ?_, hirlen, ?_, ?_, ?_⟩
  · simp only [compute_impulse_response, hinv]
  · omega
  · rw [hdlen] at hidx
    omega
  · intro j hj1 hj2
    have hji := hmax (j - s) (by rw [hdlen]; omega)
    rw [getD_map_abs, getD_map_abs, getD_drop_eq, getD_drop_eq] at hji
    have he1 : s + (j - s) = j := by omega
    rw [he1] at hji
    exact hji

/-- C3 counterexample: with the nonempty response [1] and valid sweep
parameters f_start = 1 < 2 = f_end, duration = 1/25 > 0, fs = 10 > 0,
round(duration * fs) = round(0.4) = 0, so the inverse filter is empty
and its normalization np.max(np.abs([])) raises ValueError:
compute_impulse_response raises instead of returning the claimed pair. -/

theorem compute_impulse_response_counterexample :
    ([(1 : ℝ)] ≠ ([] : List ℝ)) ∧ (0 : ℚ) < 1 ∧ (1 : ℚ) < 2 ∧
    (0 : ℚ) < 1 / 25 ∧ (0 : ℚ) < 10 ∧
    compute_impulse_response [(1 : ℝ)] 10 1 2 (1 / 25) = none := by
  refine ⟨by simp, by norm_num, by norm_num, by norm_num, by norm_num, ?_⟩
  have h0 : (pyround ((1 : ℚ) / 25 * 10)).toNat = 0 := by
    have hf : (⌊(1 / 25 * 10 : ℚ)⌋ : ℤ) = 0 := by
      norm_num [Int.floor_eq_zero_iff, Set.mem_Ico]
    norm_num [pyround, hf]
  simp only [compute_impulse_response, generate_inverse_filter]
  rw [if_pos h0]

theorem compute_impulse_response_witness :
    ([(1 : ℝ)] ≠ ([] : List ℝ)) ∧ (0 : ℚ) < 1 ∧ (1 : ℚ) < 2 ∧ (0 : ℚ) < 1 ∧
    (pyround ((1 : ℚ) * 1)).toNat ≠ 0 ∧
    ∃ ir peak_idx,
      compute_impulse_response [(1 : ℝ)] 1 1 2 1 = some (ir, peak_idx) ∧
      ir.length = 1 + (pyround ((1 : ℚ) * 1)).toNat - 1 ∧
      ir.length / 2 ≤ peak_idx ∧ peak_idx < ir.length := by
  have h1 : (pyround ((1 : ℚ) * 1)).toNat ≠ 0 := by
    norm_num [pyround]
  obtain ⟨ir, pk, hcir, hlen, hlo, hhi, _⟩ :=
    compute_impulse_response_spec [(1 : ℝ)] 1 1 2 1 (by simp) (by norm_num)
      (by norm_num) (by norm_num) (by norm_num) h1
  exact ⟨by simp, by norm_num, by norm_num, by norm_num, h1,
    ir, pk, hcir, by simpa using hlen, hlo, hhi⟩

end SysAudio
